import Mathlib

/-!
# superfetch: a shallow embedding of the fetch-and-persist pipeline

The development follows the Go sources file by file.

* `s3_utils/s3utils.go`: `ParseS3Uri`, with the regular expression it compiles
  interpreted by a small backtracking matcher (`matchItems`, `findFrom`).
* `main.go`: `Result.Load` over an explicit outcome of the HTTP exchange, and
  the worker loop of `main` as a step function over thread schedules
  (`Pool`, `step`, `exec`).
* `writer/file_wrapper.go`, `writer/avro_writer.go`: the write handle and the
  segmented sink, as functions on an explicit state (`Sys`) that also records
  the operating-system and object-store calls made (`Effect`) and the
  containers that were completed (`Sealed`).

A Go `panic` is the result `none`.  Values supplied by the outside world
(random draws, temporary file names, byte counts returned by `Write`, error
results of library calls) are explicit arguments.
-/

namespace Superfetch

/-! ## s3_utils/s3utils.go -/

/-- Single-character matchers occurring in the program's regular expression.
Semantics are those of Go's `regexp` under its default (Perl) flags. -/
inductive Atom where
  /-- A literal character. -/
  | lit (c : Char)
  /-- The negated class `[^c]`; it matches a newline. -/
  | notChar (c : Char)
  /-- The dot `.`; the `s` flag is off, so it matches every character but a newline. -/
  | dot
  deriving DecidableEq

/-- Whether an atom matches a character. -/
def Atom.accepts : Atom → Char → Bool
  | .lit c, x => x == c
  | .notChar c, x => x != c
  | .dot, x => x != '\n'

/-- Regular expressions as a sequence of items; groups are not nested. -/
inductive Item where
  /-- The anchor `^`: beginning of the text (the `m` flag is off). -/
  | bot
  /-- The anchor `$`: end of the text (the `m` flag is off). -/
  | eot
  /-- One occurrence of an atom. -/
  | one (a : Atom)
  /-- Greedy `a+`. -/
  | plus (a : Atom)
  /-- Greedy `a*`. -/
  | star (a : Atom)
  /-- Opening parenthesis of a capture group. -/
  | capOpen
  /-- Closing parenthesis of a capture group. -/
  | capClose
  deriving DecidableEq

/-- Matcher bookkeeping: offset in the text, the text consumed since the last
opening parenthesis, and the groups closed so far. -/
structure MatchCtx where
  pos : Nat
  cur : List Char
  caps : List (List Char)
  deriving DecidableEq

/-- Consume one character. -/
def MatchCtx.eat (m : MatchCtx) (c : Char) : MatchCtx :=
  { m with pos := m.pos + 1, cur := m.cur ++ [c] }

/-- Greedy repetition of an atom followed by the continuation `k`: the longest
run is tried first, shorter ones on failure (leftmost-first semantics). -/
def starLoop (a : Atom) (k : List Char → MatchCtx → Option (List (List Char))) :
    List Char → MatchCtx → Option (List (List Char))
  | [], m => k [] m
  | c :: s, m =>
    if a.accepts c then
      match starLoop a k s (m.eat c) with
      | some r => some r
      | none => k (c :: s) m
    else k (c :: s) m

/-- Match a sequence of items against the text at the current offset; the
result is the list of captured groups. -/
def matchItems : List Item → List Char → MatchCtx → Option (List (List Char))
  | [], _, m => some m.caps
  | .bot :: ps, s, m => if m.pos = 0 then matchItems ps s m else none
  | .eot :: ps, s, m => if s = [] then matchItems ps s m else none
  | .one a :: ps, s, m =>
    match s with
    | [] => none
    | c :: s => if a.accepts c then matchItems ps s (m.eat c) else none
  | .plus a :: ps, s, m =>
    match s with
    | [] => none
    | c :: s => if a.accepts c then starLoop a (matchItems ps) s (m.eat c) else none
  | .star a :: ps, s, m => starLoop a (matchItems ps) s m
  | .capOpen :: ps, s, m => matchItems ps s { m with cur := [] }
  | .capClose :: ps, s, m => matchItems ps s { m with caps := m.caps ++ [m.cur] }

/-- Leftmost match: try every start offset in turn. -/
def findFrom (re : List Item) : Nat → List Char → Option (List (List Char))
  | pos, [] => matchItems re [] ⟨pos, [], []⟩
  | pos, c :: s =>
    match matchItems re (c :: s) ⟨pos, [], []⟩ with
    | some r => some r
    | none => findFrom re (pos + 1) s

/-- Method `FindStringSubmatch` of a compiled expression: `none` is the nil
result, otherwise the texts of the groups 1, 2, ... in order.  A string is
read as its sequence of Unicode characters, as `regexp` does. -/
def FindStringSubmatch (re : List Item) (s : String) : Option (List String) :=
  (findFrom re 0 s.toList).map (fun caps => caps.map String.mk)

/-- The expression `^s3://([^/]+)/(.*)$` compiled in `ParseS3Uri`. -/
def s3UriRe : List Item :=
  [.bot, .one (.lit 's'), .one (.lit '3'), .one (.lit ':'), .one (.lit '/'), .one (.lit '/'),
   .capOpen, .plus (.notChar '/'), .capClose, .one (.lit '/'),
   .capOpen, .star .dot, .capClose, .eot]

/-- Function `ParseS3Uri`: bucket and key of an S3 URI, `none` when it panics. -/
def ParseS3Uri (uri : String) : Option (String × String) :=
  match FindStringSubmatch s3UriRe uri with
  | none => none
  | some ms => some (ms.getD 0 "", ms.getD 1 "")

/-- Function `strings.HasPrefix`. -/
def HasPrefix (s pre : String) : Bool :=
  pre.toList.isPrefixOf s.toList

/-! ## main.go: the fetch task -/

/-- One byte of a response body. -/
abbrev Byte := Fin 256

/-- Struct `Result`; a nil slice and a nil pointer are `none`. -/
structure Result where
  Url : String
  Content : Option (List Byte)
  Err : Option String
  deriving DecidableEq

/-- Outcome of `io.ReadAll` on the response body. -/
inductive BodyRead where
  /-- The body was read to its end. -/
  | ok (data : List Byte)
  /-- Reading failed after `readSoFar`. -/
  | failed (readSoFar : List Byte) (err : String)
  deriving DecidableEq

/-- Outcome of `httpClient.Do`. -/
inductive DoOutcome where
  /-- Transport failure or timeout. -/
  | failed (err : String)
  /-- A response arrived. -/
  | response (StatusCode : Int) (body : BodyRead)
  deriving DecidableEq

/-- What the network and the HTTP library answer during one `Load`. -/
structure HttpEnv where
  /-- Error of `http.NewRequest` for the URL, if any. -/
  newRequestErr : Option String
  /-- Outcome of the GET. -/
  outcome : DoOutcome
  deriving DecidableEq

/-- Function `newRequest`: it panics when `http.NewRequest` returns an error. -/
def newRequest (env : HttpEnv) (url : String) : Option String :=
  match env.newRequestErr with
  | some _ => none
  | none => some url

/-- Method `Result.Load`. -/
def Result.Load (env : HttpEnv) (r : Result) : Option Result :=
  match newRequest env r.Url with
  | none => none
  | some _ =>
    match env.outcome with
    | .failed err => some { r with Err := some err }
    | .response code body =>
      if code ≠ 200 then
        some { r with Err := some ("status:" ++ toString code) }
      else
        match body with
        | .failed _ err => some { r with Err := some err }
        | .ok content => some { r with Content := some content }

/-! ## main.go: the worker loop -/

/-- Constant `CONCURRENCY`. -/
def CONCURRENCY : Nat := 5

/-- Program counter of a launched goroutine. -/
inductive TaskPc where
  /-- Before `result.Load()`. -/
  | load
  /-- Before `writer.Append(result)`. -/
  | append
  /-- Before `<-sem`. -/
  | release
  /-- Returned. -/
  | done
  deriving DecidableEq

/-- A launched goroutine. -/
structure Task where
  url : String
  pc : TaskPc
  deriving DecidableEq

/-- Program counter of `main` from the worker loop on. -/
inductive MainPc where
  /-- At `for url := range urls`. -/
  | recv
  /-- At `sem <- true` in the worker loop. -/
  | acquire (url : String)
  /-- At the `go` statement. -/
  | launch (url : String)
  /-- In `for range CONCURRENCY`, after `i` sends. -/
  | drain (i : Nat)
  /-- At `files := writer.FinalizeSlice()`. -/
  | finalize
  /-- Printing the output files. -/
  | print
  deriving DecidableEq

/-- State of the worker pool. -/
structure Pool where
  /-- What the `urls` channel will still deliver. -/
  urls : List String
  pc : MainPc
  /-- Number of tokens buffered in `sem`, a channel of capacity `CONCURRENCY`. -/
  sem : Nat
  /-- The goroutines in launch order. -/
  tasks : List Task
  /-- Some thread has panicked: the process is gone. -/
  crashed : Bool
  deriving DecidableEq

/-- What the scheduler runs next. -/
inductive Tid where
  | main
  | task (i : Nat)
  /-- A panic in any thread. -/
  | crash
  deriving DecidableEq

/-- State at the start of the worker loop. -/
def Pool.init (urls : List String) : Pool :=
  { urls := urls, pc := .recv, sem := 0, tasks := [], crashed := false }

/-- One step of `main`; a blocked send leaves the state unchanged. -/
def stepMain (s : Pool) : Pool :=
  match s.pc with
  | .recv =>
    match s.urls with
    | [] => { s with pc := .drain 0 }
    | u :: us => { s with urls := us, pc := .acquire u }
  | .acquire u =>
    if s.sem < CONCURRENCY then { s with sem := s.sem + 1, pc := .launch u } else s
  | .launch u => { s with tasks := s.tasks ++ [⟨u, .load⟩], pc := .recv }
  | .drain i =>
    if i < CONCURRENCY then
      if s.sem < CONCURRENCY then { s with sem := s.sem + 1, pc := .drain (i + 1) } else s
    else { s with pc := .finalize }
  | .finalize => { s with pc := .print }
  | .print => s

/-- One step of goroutine `i`; a blocked receive leaves the state unchanged. -/
def stepTask (s : Pool) (i : Nat) : Pool :=
  match s.tasks[i]? with
  | none => s
  | some t =>
    match t.pc with
    | .load => { s with tasks := s.tasks.set i { t with pc := .append } }
    | .append => { s with tasks := s.tasks.set i { t with pc := .release } }
    | .release =>
      if 0 < s.sem then
        { s with sem := s.sem - 1, tasks := s.tasks.set i { t with pc := .done } }
      else s
    | .done => s

/-- One scheduler step. -/
def step (s : Pool) (t : Tid) : Pool :=
  if s.crashed then s
  else
    match t with
    | .main => stepMain s
    | .task i => stepTask s i
    | .crash => { s with crashed := true }

/-- Run a schedule. -/
def exec (s : Pool) (sched : List Tid) : Pool :=
  sched.foldl step s

/-- Number of launched goroutines that have not yet released their slot. -/
def inFlight (s : Pool) : Nat :=
  s.tasks.countP (fun t => t.pc != .done)

/-! ## writer/file_wrapper.go -/

/-- Calls that leave the process. -/
inductive Effect where
  | mkdirAll (dir : String)
  | create (path : String)
  | createTemp (path : String)
  | closeFile (path : String)
  | putObject (localFile bucket key : String)
  | remove (path : String)
  deriving DecidableEq

/-- Struct `FileWrapper` of package `writer`; `fp` is the name of the file. -/
structure FileWrapper where
  fp : String
  size : Nat
  dir : String
  file : String
  deriving DecidableEq

/-- Outside values used while a segment is opened. -/
structure OpenEnv where
  /-- The five results of `rand.Intn(len(charset))`. -/
  rnd : Fin 5 → Fin 62
  /-- Name of the file `os.CreateTemp` makes. -/
  tempName : String
  createTempErr : Bool
  mkdirAllErr : Bool
  createErr : Bool
  newEncoderErr : Bool
  /-- Byte counts returned by the `Write` calls `ocf.NewEncoder` makes. -/
  headerWrites : List Nat

/-- Outside values used by one `enc.Encode`. -/
structure EncodeEnv where
  /-- Byte counts returned by the `Write` calls this `Encode` makes. -/
  writes : List Nat
  err : Bool

/-- Outside values used while a segment is sealed. -/
structure CloseEnv where
  /-- Byte counts returned by the `Write` calls `enc.Close` makes. -/
  flushWrites : List Nat
  encCloseErr : Bool
  fpCloseErr : Bool
  uploadErr : Bool
  removeErr : Bool

/-- Function `NewFileWrapper` of package `writer`. -/
def NewFileWrapper (env : OpenEnv) (dir file : String) (eff : List Effect) :
    Option (FileWrapper × List Effect) :=
  if HasPrefix dir "s3://" then
    if env.createTempErr then none
    else some ({ fp := env.tempName, size := 0, dir := dir, file := file },
               eff ++ [.createTemp env.tempName])
  else
    if env.mkdirAllErr then none
    else if env.createErr then none
    else some ({ fp := dir ++ file, size := 0, dir := dir, file := file },
               eff ++ [.mkdirAll dir, .create (dir ++ file)])

/-- Method `FileWrapper.Write` with `n` the count returned by `fp.Write`. -/
def FileWrapper.Write (f : FileWrapper) (n : Nat) : FileWrapper :=
  { f with size := f.size + n }

/-- A library call writing through the handle several times. -/
def FileWrapper.writeAll (f : FileWrapper) (ns : List Nat) : FileWrapper :=
  ns.foldl FileWrapper.Write f

/-- Method `FileWrapper.Close` of package `writer`. -/
def FileWrapper.Close (env : CloseEnv) (f : FileWrapper) (eff : List Effect) :
    Option (List Effect) :=
  if env.fpCloseErr then none
  else
    if HasPrefix f.dir "s3://" then
      match ParseS3Uri (f.dir ++ f.file) with
      | none => none
      | some (bucket, key) =>
        if env.uploadErr then none
        else if env.removeErr then none
        else some (eff ++ [.closeFile f.fp, .putObject f.fp bucket key, .remove f.fp])
    else some (eff ++ [.closeFile f.fp])

/-! ## writer/avro_writer.go -/

/-- Constant `SPLIT_SIZE`. -/
def SPLIT_SIZE : Nat := 100000000

/-- The `charset` constant of `newFile`. -/
def charset : List Char :=
  "abcdefghijklmnopqrstuvwxyzABCDEFGHIJKLMNOPQRSTUVWXYZ0123456789".toList

/-- Function `newFile`, from the five random draws.  Every draw is below 62,
the length of `charset`, so the default of `getD` is never taken. -/
def newFile (rnd : Fin 5 → Fin 62) : String :=
  String.mk (List.ofFn (fun i => charset.getD (rnd i).val 'a')) ++ ".avro"

/-- The container encoder, as far as the sink sees it: the records passed to
`Encode` since it was created. -/
structure Encoder (α : Type) where
  schema : String
  records : List α

/-- Struct `AvroWriter` without its mutex. -/
structure AvroWriter (α : Type) where
  dir : String
  schema : String
  f : Option FileWrapper
  enc : Option (Encoder α)
  files : List String

/-- A completed container: the handle as it was closed and the records encoded
into it. -/
structure Sealed (α : Type) where
  handle : FileWrapper
  records : List α

/-- The sink together with what it has done to the outside. -/
structure Sys (α : Type) where
  w : AvroWriter α
  effects : List Effect
  sealed : List (Sealed α)

/-- Function `NewAvroWriter`. -/
def NewAvroWriter {α : Type} (dir schema : String) : AvroWriter α :=
  { dir := dir, schema := schema, f := none, enc := none, files := [] }

/-- A fresh sink that has done nothing yet. -/
def Sys.fresh {α : Type} (dir schema : String) : Sys α :=
  { w := NewAvroWriter dir schema, effects := [], sealed := [] }

/-- Method `AvroWriter.FinalizeSlice`: the returned list and the new state. -/
def FinalizeSlice {α : Type} (env : CloseEnv) (s : Sys α) : Option (List String × Sys α) :=
  match s.w.f with
  | none => some (s.w.files, s)
  | some f =>
    match s.w.enc with
    | none => none
    | some enc =>
      if env.encCloseErr then none
      else
        let f1 := f.writeAll env.flushWrites
        let files := s.w.files ++ [f1.file]
        match f1.Close env s.effects with
        | none => none
        | some eff =>
          some (files,
            { w := { s.w with f := none, enc := none, files := files },
              effects := eff,
              sealed := s.sealed ++ [⟨f1, enc.records⟩] })

/-- Method `AvroWriter.createSlice`. -/
def createSlice {α : Type} (cenv : CloseEnv) (env : OpenEnv) (s : Sys α) : Option (Sys α) :=
  match FinalizeSlice cenv s with
  | none => none
  | some (_, s1) =>
    match NewFileWrapper env s1.w.dir (newFile env.rnd) s1.effects with
    | none => none
    | some (f, eff) =>
      if env.newEncoderErr then none
      else
        some { s1 with
          w := { s1.w with
            f := some (f.writeAll env.headerWrites),
            enc := some ⟨s1.w.schema, []⟩ },
          effects := eff }

/-- Outside values used by one `Append`. -/
structure AppendEnv where
  /-- For the `FinalizeSlice` call at the start of `createSlice`. -/
  pre : CloseEnv
  /-- For the rest of `createSlice`. -/
  slice : OpenEnv
  /-- For `enc.Encode`. -/
  enc : EncodeEnv
  /-- For the `FinalizeSlice` call at the end of `Append`. -/
  fin : CloseEnv

/-- Method `AvroWriter.Append`, run under the mutex. -/
def Append {α : Type} (env : AppendEnv) (data : α) (s : Sys α) : Option (Sys α) :=
  match (if s.w.f.isNone then createSlice env.pre env.slice s else some s) with
  | none => none
  | some s1 =>
    match s1.w.f, s1.w.enc with
    | some f, some enc =>
      if env.enc.err then none
      else
        let f2 := f.writeAll env.enc.writes
        let s2 : Sys α :=
          { s1 with w := { s1.w with
              f := some f2,
              enc := some { enc with records := enc.records ++ [data] } } }
        if f2.size ≥ SPLIT_SIZE then (FinalizeSlice env.fin s2).map Prod.snd
        else some s2
    | _, _ => none

/-- A serialized sequence of `Append` calls. -/
def runAppends {α : Type} : List (AppendEnv × α) → Sys α → Option (Sys α)
  | [], s => some s
  | (env, data) :: rest, s =>
    match Append env data s with
    | none => none
    | some s1 => runAppends rest s1

/-- The write handle's cumulative byte count right after the record of one
`Append` has been encoded: what the open handle held, or the header of a new
segment, plus the bytes written by `Encode`. -/
def sizeAfterEncode {α : Type} (env : AppendEnv) (s : Sys α) : Nat :=
  (match s.w.f with
   | some f => f.size
   | none => env.slice.headerWrites.sum) + env.enc.writes.sum

/-- Environment in which no library call fails and nothing is written besides
the given byte counts. -/
def OpenEnv.quiet (rnd : Fin 5 → Fin 62) (tempName : String) (header : List Nat) : OpenEnv :=
  { rnd := rnd, tempName := tempName, createTempErr := false, mkdirAllErr := false,
    createErr := false, newEncoderErr := false, headerWrites := header }

/-- Close environment in which no call fails. -/
def CloseEnv.quiet (flush : List Nat) : CloseEnv :=
  { flushWrites := flush, encCloseErr := false, fpCloseErr := false, uploadErr := false,
    removeErr := false }

/-- Append environment in which no call fails: segment names use the draw
`k` five times, the header takes `header` bytes and the record `n` bytes. -/
def AppendEnv.quiet (k : Fin 62) (header n : Nat) : AppendEnv :=
  { pre := CloseEnv.quiet [], slice := OpenEnv.quiet (fun _ => k) "/tmp/stage" [header],
    enc := { writes := [n], err := false }, fin := CloseEnv.quiet [] }

/-! ## Auxiliary definitions: invariants and measures used in the proofs -/

/-- Consume a run of characters. -/
def MatchCtx.eatAll (m : MatchCtx) (b : List Char) : MatchCtx :=
  b.foldl MatchCtx.eat m

/-- Tokens in `sem` that `main` itself has put there and that no goroutine owns. -/
def pending : MainPc → Nat
  | .launch _ => 1
  | .drain i => i
  | .finalize => CONCURRENCY
  | .print => CONCURRENCY
  | _ => 0

/-- URL that `main` has received and not yet handed to a goroutine. -/
def inHand : MainPc → List String
  | .acquire u => [u]
  | .launch u => [u]
  | _ => []

/-- Whether `main` has left the worker loop. -/
def pastLoop : MainPc → Bool
  | .drain _ => true
  | .finalize => true
  | .print => true
  | _ => false

/-- Invariant of the worker pool started on `urls`. -/
structure PoolInv (urls : List String) (s : Pool) : Prop where
  cap : s.sem ≤ CONCURRENCY
  tokens : s.sem = inFlight s + pending s.pc
  served : s.tasks.map Task.url ++ inHand s.pc ++ s.urls = urls
  drained : pastLoop s.pc = true → s.urls = []

/-- The state right after `enc.Encode(data)` wrote through the open handle. -/
def encoded {α : Type} (env : AppendEnv) (data : α) (s : Sys α) (f : FileWrapper)
    (enc : Encoder α) : Sys α :=
  { s with w := { s.w with
      f := some (f.writeAll env.enc.writes),
      enc := some { enc with records := enc.records ++ [data] } } }

/-- Where the storage layer has put a sealed segment of a sink writing to `dir`:
for an S3 directory an object at the bucket and key parsed from
`dir ++ file`, otherwise the local file `dir ++ file`, created and closed. -/
def storedAt (dir : String) (effects : List Effect) (g : FileWrapper) : Prop :=
  if HasPrefix dir "s3://" then
    ∃ b k, ParseS3Uri (dir ++ g.file) = some (b, k) ∧ Effect.putObject g.fp b k ∈ effects
  else
    g.fp = dir ++ g.file ∧ Effect.create (dir ++ g.file) ∈ effects ∧
      Effect.closeFile (dir ++ g.file) ∈ effects

/-- Records of the open container, if any. -/
def openRecords {α : Type} (s : Sys α) : List α :=
  match s.w.enc with
  | some e => e.records
  | none => []

/-- Invariant of a sink created for `dir` to which `recs` have been appended. -/
structure SinkInv {α : Type} (dir : String) (recs : List α) (s : Sys α) : Prop where
  dir_eq : s.w.dir = dir
  enc_of_f : ∀ f, s.w.f = some f → ∃ enc, s.w.enc = some enc
  enc_none : s.w.f = none → s.w.enc = none
  files_eq : s.w.files = s.sealed.map (fun g => g.handle.file)
  records_eq : (s.sealed.map Sealed.records).flatten ++ openRecords s = recs
  sealed_at : ∀ g ∈ s.sealed, g.handle.dir = dir ∧ (∃ rnd, g.handle.file = newFile rnd) ∧
    storedAt dir s.effects g.handle
  open_at : ∀ f, s.w.f = some f → f.dir = dir ∧ (∃ rnd, f.file = newFile rnd) ∧
    (HasPrefix dir "s3://" = false →
      f.fp = dir ++ f.file ∧ Effect.create (dir ++ f.file) ∈ s.effects)

/-- Size discipline of the sink between `Append` calls. -/
def SizeInv {α : Type} (s : Sys α) : Prop :=
  (∀ g ∈ s.sealed, SPLIT_SIZE ≤ g.handle.size) ∧ (∀ f, s.w.f = some f → f.size < SPLIT_SIZE)

/-! ## Concrete runs -/

/-- Three appends: a small record, one that crosses `SPLIT_SIZE`, a small one. -/
def demoInputs : List (AppendEnv × Nat) :=
  [(AppendEnv.quiet 0 10 20, 1), (AppendEnv.quiet 1 10 SPLIT_SIZE, 2),
   (AppendEnv.quiet 2 10 20, 3)]

/-- The sink after `demoInputs` on a fresh writer for `dir`. -/
def demoMid (dir : String) : Sys Nat :=
  (runAppends demoInputs (Sys.fresh dir "schema")).getD (Sys.fresh dir "schema")

/-- The result of the closing `FinalizeSlice` after `demoInputs`. -/
def demoEnd (dir : String) : List String × Sys Nat :=
  (FinalizeSlice (CloseEnv.quiet [7]) (demoMid dir)).getD ([], demoMid dir)

/-- The sink after the first append of `demoInputs`. -/
def demoOne (dir : String) : Sys Nat :=
  (runAppends (demoInputs.take 1) (Sys.fresh dir "schema")).getD (Sys.fresh dir "schema")

/-- The sink after the first two appends of `demoInputs`. -/
def demoTwo (dir : String) : Sys Nat :=
  (Append (AppendEnv.quiet 1 10 SPLIT_SIZE) 2 (demoOne dir)).getD (demoOne dir)

/-! ## Lemmas on the matcher -/

theorem eatAll_pos (b : List Char) (m : MatchCtx) :
    (m.eatAll b).pos = m.pos + b.length ∧ (m.eatAll b).cur = m.cur ++ b ∧
      (m.eatAll b).caps = m.caps := by
  induction b generalizing m with
  | nil => simp [MatchCtx.eatAll]
  | cons c b ih =>
    obtain ⟨h1, h2, h3⟩ := ih (m.eat c)
    have e : m.eatAll (c :: b) = (m.eat c).eatAll b := rfl
    rw [e, h1, h2, h3]
    simp [MatchCtx.eat]
    omega

theorem starLoop_stop (a : Atom) (k : List Char → MatchCtx → Option (List (List Char)))
    (s : List Char) (m : MatchCtx) (h : ∀ c ∈ s.head?, a.accepts c = false) :
    starLoop a k s m = k s m := by
  cases s with
  | nil => rfl
  | cons c s => simp [starLoop, h c (by simp)]

theorem starLoop_run (a : Atom) (k : List Char → MatchCtx → Option (List (List Char)))
    (b rest : List Char) (hb : ∀ c ∈ b, a.accepts c = true) (r : List (List Char)) :
    ∀ m : MatchCtx, starLoop a k rest (m.eatAll b) = some r →
      starLoop a k (b ++ rest) m = some r := by
  induction b with
  | nil => intro m h; simpa [MatchCtx.eatAll] using h
  | cons c b ih =>
    intro m h
    have hc : a.accepts c = true := hb c (by simp)
    have h2 := ih (fun x hx => hb x (by simp [hx])) (m.eat c)
      (by simpa [MatchCtx.eatAll] using h)
    simp [starLoop, hc, h2]

theorem starLoop_none (a : Atom) (k : List Char → MatchCtx → Option (List (List Char)))
    (P : List Char → Prop) (hP : ∀ c t, P (c :: t) → P t)
    (hk : ∀ t m, P t → k t m = none) :
    ∀ (s : List Char) (m : MatchCtx), P s → starLoop a k s m = none := by
  intro s
  induction s with
  | nil => intro m h; simpa [starLoop] using hk [] m h
  | cons c s ih =>
    intro m h
    have h1 := ih (m.eat c) (hP c s h)
    have h2 := hk (c :: s) m h
    by_cases hc : a.accepts c = true <;> simp [starLoop, hc, h1, h2]

theorem findFrom_bot_none (ps : List Item) (s : List Char) :
    ∀ pos : Nat, findFrom (.bot :: ps) (pos + 1) s = none := by
  induction s with
  | nil => intro pos; simp [findFrom, matchItems]
  | cons c s ih => intro pos; simp [findFrom, matchItems, ih]

theorem findFrom_bot (ps : List Item) (s : List Char) :
    findFrom (.bot :: ps) 0 s = matchItems ps s ⟨0, [], []⟩ := by
  cases s with
  | nil => simp [findFrom, matchItems]
  | cons c s =>
    simp only [findFrom, matchItems, findFrom_bot_none]
    cases matchItems ps (c :: s) ⟨0, [], []⟩ <;> simp

/-- The match of the S3 expression on a string `s3://` + rest. -/
theorem findFrom_s3 (rest : List Char) :
    findFrom s3UriRe 0 ('s' :: '3' :: ':' :: '/' :: '/' :: rest) =
      matchItems [.plus (.notChar '/'), .capClose, .one (.lit '/'),
        .capOpen, .star .dot, .capClose, .eot] rest ⟨5, [], []⟩ := by
  rw [s3UriRe, findFrom_bot]
  simp [matchItems, Atom.accepts, MatchCtx.eat]

theorem findFrom_s3_ok (b k : List Char) (hb : b ≠ []) (hs : '/' ∉ b) (hk : '\n' ∉ k) :
    findFrom s3UriRe 0 ('s' :: '3' :: ':' :: '/' :: '/' :: (b ++ '/' :: k)) = some [b, k] := by
  rw [findFrom_s3]
  obtain ⟨c, b, rfl⟩ := List.exists_cons_of_ne_nil hb
  have hc : c ≠ '/' := fun h => hs (by simp [h])
  have hb2 : ∀ x ∈ b, (Atom.notChar '/').accepts x = true := by
    intro x hx
    have : x ≠ '/' := fun h => hs (List.mem_cons_of_mem _ (h ▸ hx))
    simp [Atom.accepts, this]
  have hk2 : ∀ x ∈ k, Atom.dot.accepts x = true := by
    intro x hx
    have : x ≠ '\n' := fun h => hk (h ▸ hx)
    simp [Atom.accepts, this]
  simp only [matchItems, List.cons_append, Atom.accepts, bne_iff_ne, ne_eq, hc,
    not_false_eq_true, if_true]
  apply starLoop_run _ _ b _ hb2
  rw [starLoop_stop _ _ _ _ (by simp [Atom.accepts])]
  simp only [matchItems, Atom.accepts, beq_self_eq_true, if_true]
  have h := starLoop_run Atom.dot (matchItems [.capClose, .eot]) k [] hk2
  simp only [List.append_nil] at h
  apply h
  simp [starLoop, matchItems, eatAll_pos, MatchCtx.eat]

theorem findFrom_s3_no_slash (rest : List Char) (h : '/' ∉ rest) :
    findFrom s3UriRe 0 ('s' :: '3' :: ':' :: '/' :: '/' :: rest) = none := by
  rw [findFrom_s3]
  cases rest with
  | nil => simp [matchItems]
  | cons c s =>
    have hc : c ≠ '/' := fun e => h (by simp [e])
    simp only [matchItems, Atom.accepts, bne_iff_ne, ne_eq, hc, not_false_eq_true, if_true]
    apply starLoop_none _ _ (fun t => '/' ∉ t)
    · intro c t ht hmem; exact ht (by simp [hmem])
    · intro t m ht
      cases t with
      | nil => simp [matchItems]
      | cons d t =>
        have hd : d ≠ '/' := fun e => ht (by simp [e])
        simp [matchItems, Atom.accepts, hd]
    · intro hmem; exact h (by simp [hmem])

theorem findFrom_s3_empty_bucket (t : List Char) :
    findFrom s3UriRe 0 ('s' :: '3' :: ':' :: '/' :: '/' :: '/' :: t) = none := by
  rw [findFrom_s3]
  simp [matchItems, Atom.accepts]

theorem toList_s3 (rest : String) :
    ("s3://" ++ rest).toList = 's' :: '3' :: ':' :: '/' :: '/' :: rest.toList := by
  simp [String.toList, String.data_append]

theorem ParseS3Uri_ok (b k : String) (hb : b ≠ "") (hs : '/' ∉ b.toList)
    (hk : '\n' ∉ k.toList) :
    ParseS3Uri ("s3://" ++ b ++ "/" ++ k) = some (b, k) := by
  have hb2 : b.toList ≠ [] := by
    intro h
    apply hb
    cases b
    simp_all [String.toList]
  have e : ("s3://" ++ b ++ "/" ++ k).toList
      = 's' :: '3' :: ':' :: '/' :: '/' :: (b.toList ++ '/' :: k.toList) := by
    rw [String.append_assoc, String.append_assoc, toList_s3]
    simp [String.toList, String.data_append]
  simp only [ParseS3Uri, FindStringSubmatch, e, findFrom_s3_ok _ _ hb2 hs hk]
  simp [String.toList]

theorem eatAll_cur (b : List Char) (m : MatchCtx) : (m.eatAll b).cur = m.cur ++ b :=
  (eatAll_pos b m).2.1

theorem eatAll_caps (b : List Char) (m : MatchCtx) : (m.eatAll b).caps = m.caps :=
  (eatAll_pos b m).2.2

theorem starLoop_some (a : Atom) (k : List Char → MatchCtx → Option (List (List Char)))
    (r : List (List Char)) :
    ∀ (s : List Char) (m : MatchCtx), starLoop a k s m = some r →
      ∃ b t, s = b ++ t ∧ (∀ c ∈ b, a.accepts c = true) ∧ k t (m.eatAll b) = some r := by
  intro s
  induction s with
  | nil =>
    intro m h
    exact ⟨[], [], rfl, by simp, by simpa [starLoop, MatchCtx.eatAll] using h⟩
  | cons c s ih =>
    intro m h
    by_cases hc : a.accepts c = true
    · simp only [starLoop, hc, if_true] at h
      cases hs : starLoop a k s (m.eat c) with
      | some r2 =>
        rw [hs] at h
        simp only [Option.some.injEq] at h
        subst h
        obtain ⟨b, t, e, hb, hk⟩ := ih (m.eat c) hs
        refine ⟨c :: b, t, by simp [e], ?_, hk⟩
        intro x hx
        simp only [List.mem_cons] at hx
        rcases hx with rfl | hx
        · exact hc
        · exact hb x hx
      | none =>
        rw [hs] at h
        exact ⟨[], c :: s, rfl, by simp, by simpa [MatchCtx.eatAll] using h⟩
    · simp only [starLoop, hc] at h
      exact ⟨[], c :: s, rfl, by simp, by simpa [MatchCtx.eatAll] using h⟩

/-- Every match of the S3 expression splits the text after the scheme at its
first slash into a non-empty bucket and a key without a newline. -/
theorem findFrom_s3_some (rest : List Char) (r : List (List Char))
    (h : findFrom s3UriRe 0 ('s' :: '3' :: ':' :: '/' :: '/' :: rest) = some r) :
    ∃ b k, rest = b ++ '/' :: k ∧ b ≠ [] ∧ '/' ∉ b ∧ '\n' ∉ k ∧ r = [b, k] := by
  rw [findFrom_s3] at h
  cases rest with
  | nil => simp [matchItems] at h
  | cons c s =>
    by_cases hc : (Atom.notChar '/').accepts c = true
    · simp only [matchItems, hc, if_true] at h
      obtain ⟨b, t, e, hb, hk⟩ := starLoop_some _ _ r s _ h
      cases t with
      | nil => simp [matchItems] at hk
      | cons d t =>
        by_cases hd : d = '/'
        · subst hd
          simp only [matchItems, Atom.accepts, beq_self_eq_true, if_true] at hk
          obtain ⟨k2, t2, e2, hk2, hfin⟩ := starLoop_some _ _ r t _ hk
          cases t2 with
          | cons x t2 => simp [matchItems] at hfin
          | nil =>
            simp only [matchItems, if_true, Option.some.injEq] at hfin
            refine ⟨c :: b, k2, by simp [e, e2], by simp, ?_, ?_, ?_⟩
            · intro hm
              simp only [List.mem_cons] at hm
              rcases hm with hm | hm
              · simp [Atom.accepts, ← hm] at hc
              · have := hb _ hm
                simp [Atom.accepts] at this
            · intro hm
              have := hk2 _ hm
              simp [Atom.accepts] at this
            · rw [← hfin]
              simp [eatAll_cur, eatAll_caps, MatchCtx.eat]
        · simp [matchItems, Atom.accepts, hd] at hk
    · simp [matchItems, hc] at h

theorem findFrom_s3_scheme (s : List Char) (r : List (List Char))
    (h : findFrom s3UriRe 0 s = some r) :
    ∃ rest, s = 's' :: '3' :: ':' :: '/' :: '/' :: rest := by
  rw [s3UriRe, findFrom_bot] at h
  rcases s with _ | ⟨c1, _ | ⟨c2, _ | ⟨c3, _ | ⟨c4, _ | ⟨c5, rest⟩⟩⟩⟩⟩ <;>
    simp [matchItems, Atom.accepts, MatchCtx.eat] at h
  obtain ⟨rfl, rfl, rfl, rfl, rfl, _⟩ := h
  exact ⟨rest, rfl⟩

/-- Exactly which strings `ParseS3Uri` accepts, and what it returns. -/
theorem ParseS3Uri_iff (uri b k : String) :
    ParseS3Uri uri = some (b, k) ↔
      uri = "s3://" ++ b ++ "/" ++ k ∧ b ≠ "" ∧ '/' ∉ b.toList ∧ '\n' ∉ k.toList := by
  constructor
  · intro h
    cases hf : findFrom s3UriRe 0 uri.toList with
    | none =>
      unfold ParseS3Uri FindStringSubmatch at h
      rw [hf] at h
      simp at h
    | some r =>
      obtain ⟨rest, hrest⟩ := findFrom_s3_scheme _ r hf
      unfold ParseS3Uri FindStringSubmatch at h
      rw [hf] at h
      rw [hrest] at hf
      obtain ⟨b2, k2, e, hb, hs, hk, rfl⟩ := findFrom_s3_some rest _ hf
      simp only [Option.map_some', List.map_cons, List.map_nil, Option.some.injEq,
        Prod.mk.injEq, List.getD_cons_zero, List.getD_cons_succ] at h
      obtain ⟨rfl, rfl⟩ := h
      refine ⟨?_, ?_, hs, hk⟩
      · apply String.ext
        have : uri.data = uri.toList := rfl
        rw [this, hrest, e]
        simp [String.data_append]
      · intro hx
        apply hb
        have := congrArg String.data hx
        simpa using this
  · rintro ⟨rfl, hb, hs, hk⟩
    exact ParseS3Uri_ok b k hb hs hk

/-! ## Segment names and the upload target -/

theorem charset_length : charset.length = 62 := by decide

theorem charset_no_newline : ∀ j : Fin 62, charset.getD j.val 'a' ≠ '\n' := by decide

theorem newFile_no_newline (rnd : Fin 5 → Fin 62) : '\n' ∉ (newFile rnd).toList := by
  intro h
  simp only [newFile, String.toList, String.data_append, List.mem_append] at h
  rcases h with h | h
  · rw [List.mem_ofFn] at h
    obtain ⟨i, hi⟩ := h
    exact charset_no_newline (rnd i) hi
  · revert h
    decide

theorem HasPrefix_s3 (rest : String) : HasPrefix ("s3://" ++ rest) "s3://" = true := by
  simp [HasPrefix, toList_s3]

/-- Closing a remote handle whose directory holds no newline uploads the
staging file to the bucket and to the key made of the directory's path and
the segment name. -/
theorem Close_remote_ok (env : CloseEnv) (b p fp : String) (n : Nat) (rnd : Fin 5 → Fin 62)
    (eff : List Effect) (hb : b ≠ "") (hs : '/' ∉ b.toList) (hp : '\n' ∉ p.toList)
    (h1 : env.fpCloseErr = false) (h2 : env.uploadErr = false) (h3 : env.removeErr = false) :
    FileWrapper.Close env ⟨fp, n, "s3://" ++ b ++ "/" ++ p, newFile rnd⟩ eff =
      some (eff ++ [.closeFile fp, .putObject fp b (p ++ newFile rnd), .remove fp]) := by
  have hk : '\n' ∉ (p ++ newFile rnd).toList := by
    intro h
    simp only [String.toList, String.data_append, List.mem_append] at h
    rcases h with h | h
    · exact hp h
    · exact newFile_no_newline rnd h
  have hparse := ParseS3Uri_ok b (p ++ newFile rnd) hb hs hk
  have hpre : HasPrefix ("s3://" ++ b ++ "/" ++ p) "s3://" = true := by
    rw [String.append_assoc, String.append_assoc]
    exact HasPrefix_s3 _
  have e : "s3://" ++ b ++ "/" ++ p ++ newFile rnd = "s3://" ++ b ++ "/" ++ (p ++ newFile rnd) := by
    simp [String.append_assoc]
  simp [FileWrapper.Close, h1, h2, h3, hpre, e, hparse]

/-! ## Location parsing and the upload target: the stated properties -/

/-- C6, at a failing input.  The bucket `bucket` is non-empty and has no slash
and the key is non-empty, yet `ParseS3Uri` panics, because the key contains a
newline, which `.` does not match; the documented example
`s3://bucket/a/b.ext` parses. -/
theorem c6_newline_key_panics :
    ParseS3Uri ("s3://" ++ "bucket" ++ "/" ++ "a\nb") = none ∧
      ParseS3Uri "s3://bucket/a/b.ext" = some ("bucket", "a/b.ext") := by
  decide

/-- C7, as the code has it.  For a string `s3://` + rest, `ParseS3Uri` panics
when the rest has no slash at all or begins with a slash (empty container);
an empty key is accepted: for a non-empty bucket without a slash,
`s3://` + bucket + `/` parses to that bucket and the empty key. -/
theorem c7_malformed_rejected (rest b : String) :
    (('/' ∉ rest.toList ∨ rest.toList.head? = some '/') →
        ParseS3Uri ("s3://" ++ rest) = none) ∧
      (b ≠ "" → '/' ∉ b.toList → ParseS3Uri ("s3://" ++ b ++ "/") = some (b, "")) := by
  constructor
  · intro h
    simp only [ParseS3Uri, FindStringSubmatch, toList_s3]
    rcases h with h | h
    · rw [findFrom_s3_no_slash _ h]
      rfl
    · cases hr : rest.toList with
      | nil =>
        rw [hr] at h
        simp at h
      | cons c t =>
        rw [hr] at h
        simp only [List.head?_cons, Option.some.injEq] at h
        subst h
        rw [findFrom_s3_empty_bucket]
        rfl
  · intro hb hs
    have := ParseS3Uri_ok b "" hb hs (by simp [String.toList])
    simpa using this

/-- Inputs for C7: no slash, empty container, empty key. -/
theorem c7_witness :
    ParseS3Uri ("s3://" ++ "bucket") = none ∧ ParseS3Uri ("s3://" ++ "/key") = none ∧
      ParseS3Uri ("s3://" ++ "bucket" ++ "/") = some ("bucket", "") :=
  ⟨(c7_malformed_rejected "bucket" "bucket").1 (Or.inl (by decide)),
   (c7_malformed_rejected "/key" "bucket").1 (Or.inr (by decide)),
   (c7_malformed_rejected "bucket" "bucket").2 (by decide) (by decide)⟩

/-- C7 as stated fails: `s3://bucket/` has an empty key and `ParseS3Uri`
does not panic on it; it returns the bucket `bucket` and the empty key. -/
theorem c7_counterexample : ParseS3Uri "s3://bucket/" = some ("bucket", "") := by
  decide

/-- C10, at a failing input.  The directory `s3://b/x⏎y/` has a non-empty
bucket without a slash and a path ending in a slash, and the segment name
comes from `newFile`; closing the handle panics in `ParseS3Uri` instead of
uploading, because the path contains a newline. -/
theorem c10_newline_dir_panics :
    FileWrapper.Close (CloseEnv.quiet [])
        ⟨"/tmp/stage", 0, "s3://" ++ "b" ++ "/" ++ "x\ny/", newFile (fun _ => 0)⟩ [] = none ∧
      ParseS3Uri ("s3://" ++ "b" ++ "/" ++ "x\ny/" ++ newFile (fun _ => 0)) = none := by
  decide

/-! ## The fetch task: the stated property -/

/-- C5, as the code has it.  Outcome of a fetch for a URL `u` that
`http.NewRequest` accepts, so that `newRequest` does not panic and the GET is
issued: `Load` on `Result{Url: u}` returns; `Url` is unchanged; `Err` and
`Content` are never both set; a transport error, a status other than 200, or a
failed body read set `Err` and leave `Content` nil; status 200 with a body
read to its end sets `Content` to that body and leaves `Err` nil. -/
theorem c5_load_outcome (u : String) (env : HttpEnv) (h : env.newRequestErr = none) :
    ∃ r, Result.Load env ⟨u, none, none⟩ = some r ∧ r.Url = u ∧
      ¬ (r.Err.isSome = true ∧ r.Content.isSome = true) ∧
      (∀ e, env.outcome = .failed e → r.Err = some e ∧ r.Content = none) ∧
      (∀ code body, env.outcome = .response code body → code ≠ 200 →
        r.Err.isSome = true ∧ r.Content = none) ∧
      (∀ sofar e, env.outcome = .response 200 (.failed sofar e) →
        r.Err = some e ∧ r.Content = none) ∧
      (∀ data, env.outcome = .response 200 (.ok data) →
        r.Content = some data ∧ r.Err = none) := by
  obtain ⟨nr, outcome⟩ := env
  simp only at h
  subst h
  cases outcome with
  | failed e => exact ⟨_, rfl, rfl, by simp, by simp, by simp, by simp, by simp⟩
  | response code body =>
    by_cases hc : code = 200
    · subst hc
      cases body with
      | ok data => exact ⟨_, rfl, rfl, by simp, by simp, by simp, by simp, by simp⟩
      | failed sofar e => exact ⟨_, rfl, rfl, by simp, by simp, by simp, by simp, by simp⟩
    · refine ⟨⟨u, none, some ("status:" ++ toString code)⟩, ?_, rfl, by simp, by simp,
        by simp, ?_, ?_⟩
      · simp [Result.Load, newRequest, hc]
      · intro sofar e he
        simp only [DoOutcome.response.injEq] at he
        exact absurd he.1 hc
      · intro data he
        simp only [DoOutcome.response.injEq] at he
        exact absurd he.1 hc

/-- Three fetches for C5: status 200 with body `hi`, status 404, a timeout. -/
theorem c5_witness :
    Result.Load ⟨none, .response 200 (.ok [104, 105])⟩ ⟨"http://h/", none, none⟩ =
        some ⟨"http://h/", some [104, 105], none⟩ ∧
      Result.Load ⟨none, .response 404 (.ok [104, 105])⟩ ⟨"http://h/", none, none⟩ =
        some ⟨"http://h/", none, some "status:404"⟩ ∧
      ∃ r, Result.Load ⟨none, .failed "timeout"⟩ ⟨"http://h/", none, none⟩ = some r ∧
        r.Url = "http://h/" ∧ r.Err = some "timeout" ∧ r.Content = none :=
  ⟨by decide, by decide,
    (c5_load_outcome "http://h/" ⟨none, .failed "timeout"⟩ rfl).elim
      (fun r hr => ⟨r, hr.1, hr.2.1, hr.2.2.2.1 "timeout" rfl⟩)⟩

/-- When `http.NewRequest` rejects the URL, `Load` panics whatever the network
would have answered: no field of the result is set. -/
theorem Load_panics_of_newRequestErr (e : String) (outcome : DoOutcome) (r : Result) :
    Result.Load ⟨some e, outcome⟩ r = none := by
  simp [Result.Load, newRequest]

/-- C5 as stated fails: `http.NewRequest` rejects the URL `%zz` (an invalid
escape), `newRequest` panics, and `Load` on `Result{Url: "%zz"}` ends in that
panic for a timeout, for a status 404 and for a status 200 alike; it returns
no result with `Err` set. -/
theorem c5_counterexample :
    Result.Load ⟨some "parse \"%zz\": invalid URL escape \"%zz\"", .failed "timeout"⟩
        ⟨"%zz", none, none⟩ = none ∧
      Result.Load ⟨some "parse \"%zz\": invalid URL escape \"%zz\"", .response 404 (.ok [])⟩
        ⟨"%zz", none, none⟩ = none ∧
      Result.Load
        ⟨some "parse \"%zz\": invalid URL escape \"%zz\"", .response 200 (.ok [104, 105])⟩
        ⟨"%zz", none, none⟩ = none := by
  decide

/-! ## The worker loop -/

theorem countP_set_getElem? {α : Type} (p : α → Bool) (l : List α) (i : Nat) (a b : α)
    (h : l[i]? = some a) :
    (l.set i b).countP p + (if p a then 1 else 0) = l.countP p + (if p b then 1 else 0) := by
  induction l generalizing i with
  | nil => simp at h
  | cons x l ih =>
    cases i with
    | zero =>
      simp at h
      subst h
      simp [List.countP_cons]
      omega
    | succ i =>
      simp at h
      have := ih i h
      simp [List.countP_cons]
      omega

theorem map_url_set (l : List Task) (i : Nat) (t : Task) (pc : TaskPc)
    (h : l[i]? = some t) : (l.set i { t with pc := pc }).map Task.url = l.map Task.url := by
  induction l generalizing i with
  | nil => simp
  | cons x l ih =>
    cases i with
    | zero => simp at h; subst h; simp
    | succ i => simp at h; simp [ih i h]

theorem PoolInv_init (urls : List String) : PoolInv urls (Pool.init urls) := by
  constructor <;> simp [Pool.init, inFlight, pending, inHand, pastLoop]

theorem PoolInv_stepMain (urls : List String) (s : Pool) (h : PoolInv urls s) :
    PoolInv urls (stepMain s) := by
  obtain ⟨h1, h2, h3, h4⟩ := h
  unfold stepMain
  split
  · split
    · next hpc hu =>
      constructor <;> simp_all [inFlight, pending, inHand, pastLoop]
    · next hpc u us hu =>
      constructor <;> simp_all [inFlight, pending, inHand, pastLoop]
  · next u hpc =>
    split
    · constructor <;> simp_all [inFlight, pending, inHand, pastLoop]
      omega
    · exact ⟨h1, h2, h3, h4⟩
  · next u hpc =>
    constructor <;> simp_all [inFlight, pending, inHand, pastLoop, List.countP_append]
  · next i hpc =>
    split
    · split
      · constructor <;> simp_all [inFlight, pending, inHand, pastLoop] <;> omega
      · exact ⟨h1, h2, h3, h4⟩
    · constructor <;> simp_all [inFlight, pending, inHand, pastLoop]
      omega
  · next hpc =>
    constructor <;> simp_all [inFlight, pending, inHand, pastLoop]
  · exact ⟨h1, h2, h3, h4⟩

theorem PoolInv_stepTask (urls : List String) (s : Pool) (i : Nat) (h : PoolInv urls s) :
    PoolInv urls (stepTask s i) := by
  obtain ⟨h1, h2, h3, h4⟩ := h
  unfold stepTask
  split
  · exact ⟨h1, h2, h3, h4⟩
  · next t ht =>
    have hu := fun pc => map_url_set s.tasks i t pc ht
    have hc := fun pc => countP_set_getElem? (fun t => t.pc != .done) s.tasks i t
      { t with pc := pc } ht
    unfold inFlight at h2
    split
    · next hpc =>
      have := hc .append
      simp only [hpc] at this
      refine ⟨h1, ?_, ?_, h4⟩
      · simp only [inFlight]
        simp at this
        omega
      · simpa only [hu] using h3
    · next hpc =>
      have := hc .release
      simp only [hpc] at this
      refine ⟨h1, ?_, ?_, h4⟩
      · simp only [inFlight]
        simp at this
        omega
      · simpa only [hu] using h3
    · next hpc =>
      have := hc .done
      simp only [hpc] at this
      split
      · next hpos =>
        refine ⟨?_, ?_, ?_, h4⟩
        · show s.sem - 1 ≤ CONCURRENCY
          omega
        · show s.sem - 1 = _
          simp only [inFlight]
          simp at this
          omega
        · simpa only [hu] using h3
      · exact ⟨h1, h2, h3, h4⟩
    · exact ⟨h1, h2, h3, h4⟩

theorem PoolInv_step (urls : List String) (s : Pool) (t : Tid) (h : PoolInv urls s) :
    PoolInv urls (step s t) := by
  unfold step
  split
  · exact h
  · cases t with
    | main => exact PoolInv_stepMain urls s h
    | task i => exact PoolInv_stepTask urls s i h
    | crash => exact ⟨h.1, h.2, h.3, h.4⟩

theorem PoolInv_exec (urls : List String) (sched : List Tid) :
    ∀ s : Pool, PoolInv urls s → PoolInv urls (exec s sched) := by
  induction sched with
  | nil => intro s h; exact h
  | cons t sched ih => intro s h; exact ih _ (PoolInv_step urls s t h)

/-- C1. Bounded concurrency: from the start of the worker loop, for every
sequence of URLs and every schedule of `main` and the goroutines (panics
included), the number of launched goroutines that have not yet received
from `sem` is at most `CONCURRENCY`, and so is the number of buffered tokens. -/
theorem c1_bounded_concurrency (urls : List String) (sched : List Tid) :
    inFlight (exec (Pool.init urls) sched) ≤ CONCURRENCY ∧
      (exec (Pool.init urls) sched).sem ≤ CONCURRENCY ∧
      CONCURRENCY = 5 := by
  have h := PoolInv_exec urls sched _ (PoolInv_init urls)
  have h1 := h.cap
  have h2 := h.tokens
  refine ⟨by omega, h1, rfl⟩

/-- The bound of the worker loop is reached, and `main` then waits: with six
URLs, after fifteen steps of `main` five goroutines are in flight, and further
steps of `main` leave it blocked at `sem <- true` with the sixth URL in hand. -/
theorem inFlight_reaches_capacity :
    inFlight (exec (Pool.init ["a", "b", "c", "d", "e", "f"]) (List.replicate 15 .main)) = 5 ∧
      (exec (Pool.init ["a", "b", "c", "d", "e", "f"]) (List.replicate 20 .main)).pc =
        .acquire "f" ∧
      inFlight (exec (Pool.init ["a", "b", "c", "d", "e", "f"]) (List.replicate 20 .main)) = 5 := by
  decide

/-- C4. Drain before finalize: in every schedule, once `main` has left the
drain loop (it stands at `writer.FinalizeSlice` or beyond), no goroutine is
in flight: every launched goroutine has done its `Append` and received from
`sem`, and one goroutine was launched for each URL, in order. -/
theorem c4_drain_before_finalize (urls : List String) (sched : List Tid)
    (h : (exec (Pool.init urls) sched).pc = .finalize ∨
      (exec (Pool.init urls) sched).pc = .print) :
    inFlight (exec (Pool.init urls) sched) = 0 ∧
      (∀ t ∈ (exec (Pool.init urls) sched).tasks, t.pc = .done) ∧
      (exec (Pool.init urls) sched).tasks.map Task.url = urls ∧
      (exec (Pool.init urls) sched).urls = [] := by
  have hi := PoolInv_exec urls sched _ (PoolInv_init urls)
  obtain ⟨h1, h2, h3, h4⟩ := hi
  have hp : pending (exec (Pool.init urls) sched).pc = CONCURRENCY := by
    rcases h with h | h <;> simp [h, pending]
  have hl : pastLoop (exec (Pool.init urls) sched).pc = true := by
    rcases h with h | h <;> simp [h, pastLoop]
  have hz : inFlight (exec (Pool.init urls) sched) = 0 := by omega
  have hu := h4 hl
  have hh : inHand (exec (Pool.init urls) sched).pc = [] := by
    rcases h with h | h <;> simp [h, inHand]
  refine ⟨hz, ?_, ?_, hu⟩
  · intro t ht
    have := List.countP_eq_zero.mp hz t ht
    simpa using this
  · simpa [hh, hu] using h3

/-- A schedule for C4: two URLs, the goroutines interleaved with `main`, which
then drains and stands at `writer.FinalizeSlice`. -/
theorem c4_witness :
    ((exec (Pool.init ["a", "b"]) [.main, .main, .main, .task 0, .main, .main, .main,
        .task 1, .task 0, .task 1, .task 1, .task 0,
        .main, .main, .main, .main, .main, .main, .main]).pc = .finalize ∨
      (exec (Pool.init ["a", "b"]) [.main, .main, .main, .task 0, .main, .main, .main,
        .task 1, .task 0, .task 1, .task 1, .task 0,
        .main, .main, .main, .main, .main, .main, .main]).pc = .print) ∧
    (exec (Pool.init ["a", "b"]) [.main, .main, .main, .task 0, .main, .main, .main,
        .task 1, .task 0, .task 1, .task 1, .task 0,
        .main, .main, .main, .main, .main, .main, .main]).tasks.map Task.url = ["a", "b"] :=
  ⟨by decide, (c4_drain_before_finalize ["a", "b"] _ (by decide)).2.2.1⟩

/-! ## The write handle and the sink: what each operation does -/

theorem writeAll_fields (ns : List Nat) (f : FileWrapper) :
    (f.writeAll ns).fp = f.fp ∧ (f.writeAll ns).dir = f.dir ∧
      (f.writeAll ns).file = f.file ∧ (f.writeAll ns).size = f.size + ns.sum := by
  induction ns generalizing f with
  | nil => simp [FileWrapper.writeAll]
  | cons n ns ih =>
    obtain ⟨h1, h2, h3, h4⟩ := ih (f.Write n)
    have e : f.writeAll (n :: ns) = (f.Write n).writeAll ns := rfl
    rw [e, h1, h2, h3, h4]
    simp [FileWrapper.Write]
    omega

theorem Close_spec (env : CloseEnv) (f : FileWrapper) (eff eff1 : List Effect)
    (h : f.Close env eff = some eff1) :
    if HasPrefix f.dir "s3://" then
      ∃ b k, ParseS3Uri (f.dir ++ f.file) = some (b, k) ∧
        eff1 = eff ++ [.closeFile f.fp, .putObject f.fp b k, .remove f.fp]
    else eff1 = eff ++ [.closeFile f.fp] := by
  unfold FileWrapper.Close at h
  by_cases hr : HasPrefix f.dir "s3://" = true
  · simp only [hr, if_true] at h ⊢
    split at h
    · simp at h
    · split at h
      · simp at h
      · next b k hp =>
        split at h
        · simp at h
        · split at h
          · simp at h
          · simp at h
            exact ⟨b, k, hp, h.symm⟩
  · simp only [hr] at h ⊢
    split at h
    · simp at h
    · simp at h ⊢
      exact h.symm

theorem FinalizeSlice_empty {α : Type} (env : CloseEnv) (s : Sys α) (h : s.w.f = none) :
    FinalizeSlice env s = some (s.w.files, s) := by
  simp [FinalizeSlice, h]

theorem FinalizeSlice_open {α : Type} (env : CloseEnv) (s s1 : Sys α) (f : FileWrapper)
    (out : List String) (hf : s.w.f = some f) (h : FinalizeSlice env s = some (out, s1)) :
    ∃ enc eff, s.w.enc = some enc ∧
      (f.writeAll env.flushWrites).Close env s.effects = some eff ∧
      out = s.w.files ++ [f.file] ∧
      s1 = { w := { s.w with f := none, enc := none, files := s.w.files ++ [f.file] },
             effects := eff,
             sealed := s.sealed ++ [⟨f.writeAll env.flushWrites, enc.records⟩] } := by
  unfold FinalizeSlice at h
  simp only [hf] at h
  split at h
  · simp at h
  · next enc he =>
    split at h
    · simp at h
    · split at h
      · simp at h
      · next eff hc =>
        simp only [Option.some.injEq, Prod.mk.injEq] at h
        refine ⟨enc, eff, he, hc, ?_, ?_⟩
        · rw [← h.1, (writeAll_fields _ f).2.2.1]
        · rw [← h.2, (writeAll_fields _ f).2.2.1]

theorem NewFileWrapper_spec (env : OpenEnv) (dir file : String) (eff eff1 : List Effect)
    (f : FileWrapper) (h : NewFileWrapper env dir file eff = some (f, eff1)) :
    f.dir = dir ∧ f.file = file ∧ f.size = 0 ∧
      (if HasPrefix dir "s3://" then
        f.fp = env.tempName ∧ eff1 = eff ++ [.createTemp env.tempName]
      else f.fp = dir ++ file ∧ eff1 = eff ++ [.mkdirAll dir, .create (dir ++ file)]) := by
  unfold NewFileWrapper at h
  cases hr : HasPrefix dir "s3://" <;> cases h1 : env.createTempErr <;>
    cases h2 : env.mkdirAllErr <;> cases h3 : env.createErr <;>
    simp [hr, h1, h2, h3] at h ⊢ <;>
    (obtain ⟨rfl, rfl⟩ := h; simp)

theorem createSlice_empty {α : Type} (cenv : CloseEnv) (env : OpenEnv) (s s1 : Sys α)
    (hf : s.w.f = none) (h : createSlice cenv env s = some s1) :
    ∃ f eff, NewFileWrapper env s.w.dir (newFile env.rnd) s.effects = some (f, eff) ∧
      s1 = { s with
        w := { s.w with f := some (f.writeAll env.headerWrites),
                        enc := some ⟨s.w.schema, []⟩ },
        effects := eff } := by
  unfold createSlice at h
  rw [FinalizeSlice_empty cenv s hf] at h
  simp only at h
  split at h
  · simp at h
  · next f eff hn =>
    split at h
    · simp at h
    · simp only [Option.some.injEq] at h
      exact ⟨f, eff, hn, h.symm⟩

/-- What one `Append` does: it opens a segment when none is open, encodes, and
seals when the handle has reached `SPLIT_SIZE`. -/
theorem Append_spec {α : Type} (env : AppendEnv) (data : α) (s s3 : Sys α)
    (h : Append env data s = some s3) :
    ∃ s1 f enc,
      ((s.w.f = none ∧ createSlice env.pre env.slice s = some s1) ∨
        (s.w.f ≠ none ∧ s1 = s)) ∧
      s1.w.f = some f ∧ s1.w.enc = some enc ∧
      ((SPLIT_SIZE ≤ (f.writeAll env.enc.writes).size ∧
          ∃ out, FinalizeSlice env.fin (encoded env data s1 f enc) = some (out, s3)) ∨
        ((f.writeAll env.enc.writes).size < SPLIT_SIZE ∧ s3 = encoded env data s1 f enc)) := by
  unfold Append at h
  split at h
  · simp at h
  · next s1 hs1 =>
    split at h
    · next f enc hf he =>
      split at h
      · simp at h
      · refine ⟨s1, f, enc, ?_, hf, he, ?_⟩
        · by_cases hn : s.w.f = none
          · left
            simp only [hn, Option.isNone_none, if_true] at hs1
            exact ⟨hn, hs1⟩
          · right
            have : s.w.f.isNone = false := by
              cases hx : s.w.f with
              | none => exact absurd hx hn
              | some _ => rfl
            simp only [this] at hs1
            simp at hs1
            exact ⟨hn, hs1.symm⟩
        · by_cases hsz : SPLIT_SIZE ≤ (f.writeAll env.enc.writes).size
          · left
            simp only [ge_iff_le, hsz, if_true, Option.map_eq_some'] at h
            obtain ⟨⟨out, s'⟩, h1, h2⟩ := h
            simp only at h2
            subst h2
            exact ⟨hsz, out, h1⟩
          · right
            simp only [ge_iff_le, hsz, if_false, Option.some.injEq] at h
            exact ⟨by omega, h.symm⟩
    · simp at h

/-! ## Invariants of the sink -/

theorem storedAt_mono (dir : String) (e1 e2 : List Effect) (g : FileWrapper)
    (hsub : ∀ x ∈ e1, x ∈ e2) (h : storedAt dir e1 g) : storedAt dir e2 g := by
  unfold storedAt at h ⊢
  split
  · next hr =>
    simp only [hr, if_true] at h
    obtain ⟨b, k, h1, h2⟩ := h
    exact ⟨b, k, h1, hsub _ h2⟩
  · next hr =>
    simp only [hr] at h
    exact ⟨h.1, hsub _ h.2.1, hsub _ h.2.2⟩

theorem SinkInv_fresh {α : Type} (dir schema : String) :
    SinkInv dir ([] : List α) (Sys.fresh dir schema) := by
  constructor <;> simp [Sys.fresh, NewAvroWriter, openRecords]

theorem createSlice_inv {α : Type} (dir : String) (recs : List α) (cenv : CloseEnv)
    (env : OpenEnv) (s s1 : Sys α) (hi : SinkInv dir recs s) (hf : s.w.f = none)
    (h : createSlice cenv env s = some s1) :
    SinkInv dir recs s1 ∧ s1.sealed = s.sealed ∧ s1.w.files = s.w.files ∧
      ∃ f enc, s1.w.f = some f ∧ s1.w.enc = some enc ∧ f.size = env.headerWrites.sum := by
  obtain ⟨f, eff, hn, rfl⟩ := createSlice_empty cenv env s s1 hf h
  obtain ⟨n1, n2, n3, n4⟩ := NewFileWrapper_spec _ _ _ _ _ _ hn
  obtain ⟨w1, w2, w3, w4⟩ := writeAll_fields env.headerWrites f
  have hsub : ∀ x ∈ s.effects, x ∈ eff := by
    intro x hx
    split at n4 <;> simp [n4.2, hx]
  have he := hi.enc_none hf
  refine ⟨⟨hi.dir_eq, ?_, ?_, hi.files_eq, ?_, ?_, ?_⟩, rfl, rfl, _, _, rfl, rfl, ?_⟩
  · intro g _; exact ⟨_, rfl⟩
  · intro hx; simp at hx
  · have := hi.records_eq
    simpa [openRecords, he] using this
  · intro g hg
    obtain ⟨a, b, c⟩ := hi.sealed_at g hg
    exact ⟨a, b, storedAt_mono _ _ _ _ hsub c⟩
  · intro g hg
    simp only [Option.some.injEq] at hg
    subst hg
    rw [w1, w2, w3, n1, n2, hi.dir_eq]
    refine ⟨rfl, ⟨env.rnd, rfl⟩, ?_⟩
    intro hr
    rw [hi.dir_eq] at n4
    simp only [hr] at n4
    simp [n4.1, n4.2]
  · rw [w4, n3]; simp

theorem encoded_inv {α : Type} (dir : String) (recs : List α) (env : AppendEnv) (data : α)
    (s : Sys α) (f : FileWrapper) (enc : Encoder α) (hi : SinkInv dir recs s)
    (hf : s.w.f = some f) (he : s.w.enc = some enc) :
    SinkInv dir (recs ++ [data]) (encoded env data s f enc) := by
  obtain ⟨w1, w2, w3, w4⟩ := writeAll_fields env.enc.writes f
  obtain ⟨o1, o2, o3⟩ := hi.open_at f hf
  refine ⟨hi.dir_eq, ?_, ?_, hi.files_eq, ?_, hi.sealed_at, ?_⟩
  · intro g _; exact ⟨_, rfl⟩
  · intro hx; simp [encoded] at hx
  · have := hi.records_eq
    simp only [openRecords, he] at this
    simp [encoded, openRecords, ← this]
  · intro g hg
    simp only [encoded, Option.some.injEq] at hg
    subst hg
    rw [w1, w2, w3]
    exact ⟨o1, o2, o3⟩

theorem FinalizeSlice_inv {α : Type} (dir : String) (recs : List α) (env : CloseEnv)
    (s s1 : Sys α) (out : List String) (hi : SinkInv dir recs s)
    (h : FinalizeSlice env s = some (out, s1)) :
    SinkInv dir recs s1 ∧ out = s1.w.files ∧ s1.w.f = none ∧ s1.w.enc = none ∧
      (s.w.f = none → s1 = s) ∧
      (∀ f, s.w.f = some f → ∃ g, s1.sealed = s.sealed ++ [g] ∧ g.handle.file = f.file ∧
        g.handle.size = f.size + env.flushWrites.sum ∧ g.records = openRecords s ∧
        s1.w.files = s.w.files ++ [f.file] ∧ Effect.closeFile f.fp ∈ s1.effects) := by
  cases hf : s.w.f with
  | none =>
    rw [FinalizeSlice_empty env s hf] at h
    simp only [Option.some.injEq, Prod.mk.injEq] at h
    obtain ⟨rfl, rfl⟩ := h
    exact ⟨hi, rfl, hf, hi.enc_none hf, fun _ => rfl, by simp⟩
  | some f =>
    obtain ⟨enc, eff, he, hc, rfl, rfl⟩ := FinalizeSlice_open env s s1 f out hf h
    obtain ⟨w1, w2, w3, w4⟩ := writeAll_fields env.flushWrites f
    obtain ⟨o1, o2, o3⟩ := hi.open_at f hf
    have hcl := Close_spec _ _ _ _ hc
    rw [w1, w2, w3, o1] at hcl
    have hsub : ∀ x ∈ s.effects, x ∈ eff := by
      intro x hx
      split at hcl
      · obtain ⟨b, k, _, e⟩ := hcl
        simp [e, hx]
      · simp [hcl, hx]
    have hclose : Effect.closeFile f.fp ∈ eff := by
      split at hcl
      · obtain ⟨b, k, _, e⟩ := hcl
        simp [e]
      · simp [hcl]
    refine ⟨⟨hi.dir_eq, ?_, ?_, ?_, ?_, ?_, ?_⟩, rfl, rfl, rfl, ?_, ?_⟩
    · intro g hg; simp at hg
    · intro _; rfl
    · simp [hi.files_eq, w3]
    · have := hi.records_eq
      simp only [openRecords, he] at this
      simp [openRecords, ← this]
    · intro g hg
      simp only [List.mem_append, List.mem_singleton] at hg
      rcases hg with hg | rfl
      · obtain ⟨a, b, c⟩ := hi.sealed_at g hg
        exact ⟨a, b, storedAt_mono _ _ _ _ hsub c⟩
      · simp only [w2, w3]
        refine ⟨o1, o2, ?_⟩
        unfold storedAt
        simp only [w1, w3]
        split
        · next hr =>
          simp only [hr, if_true] at hcl
          obtain ⟨b, k, hp, e⟩ := hcl
          exact ⟨b, k, hp, by simp [e]⟩
        · next hr =>
          have hr2 : HasPrefix dir "s3://" = false := by simpa using hr
          obtain ⟨p1, p2⟩ := o3 hr2
          exact ⟨p1, hsub _ p2, p1 ▸ hclose⟩
    · intro g hg; simp at hg
    · intro hx; simp [hf] at hx
    · intro g hg
      simp only [Option.some.injEq] at hg
      subst hg
      exact ⟨_, rfl, w3, w4, by simp [openRecords, he], rfl, hclose⟩

theorem Append_inv {α : Type} (dir : String) (recs : List α) (env : AppendEnv) (data : α)
    (s s3 : Sys α) (hi : SinkInv dir recs s) (h : Append env data s = some s3) :
    SinkInv dir (recs ++ [data]) s3 := by
  obtain ⟨s1, f, enc, hopen, hf, he, hseal⟩ := Append_spec env data s s3 h
  have h1 : SinkInv dir recs s1 := by
    rcases hopen with ⟨hn, hc⟩ | ⟨_, rfl⟩
    · exact (createSlice_inv dir recs _ _ s s1 hi hn hc).1
    · exact hi
  have h2 := encoded_inv dir recs env data s1 f enc h1 hf he
  rcases hseal with ⟨_, out, hfin⟩ | ⟨_, rfl⟩
  · exact (FinalizeSlice_inv dir _ _ _ _ _ h2 hfin).1
  · exact h2

/-- Shape of the state after one `Append`, in terms of the handle's byte count
after the encode. -/
theorem Append_shape {α : Type} (env : AppendEnv) (data : α) (s s3 : Sys α)
    (h : Append env data s = some s3) :
    (SPLIT_SIZE ≤ sizeAfterEncode env s ∧ s3.w.f = none ∧ s3.w.enc = none ∧
        ∃ g, s3.sealed = s.sealed ++ [g] ∧
          g.handle.size = sizeAfterEncode env s + env.fin.flushWrites.sum ∧
          s3.w.files = s.w.files ++ [g.handle.file]) ∨
      (sizeAfterEncode env s < SPLIT_SIZE ∧ s3.sealed = s.sealed ∧ s3.w.files = s.w.files ∧
        ∃ f, s3.w.f = some f ∧ f.size = sizeAfterEncode env s) := by
  obtain ⟨s1, f, enc, hopen, hf, he, hseal⟩ := Append_spec env data s s3 h
  obtain ⟨w1, w2, w3, w4⟩ := writeAll_fields env.enc.writes f
  have hsz : (f.writeAll env.enc.writes).size = sizeAfterEncode env s ∧
      s1.sealed = s.sealed ∧ s1.w.files = s.w.files := by
    rcases hopen with ⟨hn, hc⟩ | ⟨hn, rfl⟩
    · obtain ⟨fw, eff, hnew, rfl⟩ := createSlice_empty _ _ s s1 hn hc
      obtain ⟨_, _, n3, _⟩ := NewFileWrapper_spec _ _ _ _ _ _ hnew
      simp only [Option.some.injEq] at hf
      subst hf
      rw [w4, (writeAll_fields _ fw).2.2.2, n3]
      simp [sizeAfterEncode, hn]
    · rw [w4]
      simp [sizeAfterEncode, hf]
  obtain ⟨z1, z2, z3⟩ := hsz
  rcases hseal with ⟨hge, out, hfin⟩ | ⟨hlt, rfl⟩
  · left
    have hf2 : (encoded env data s1 f enc).w.f = some (f.writeAll env.enc.writes) := rfl
    obtain ⟨enc2, eff, _, _, _, rfl⟩ := FinalizeSlice_open _ _ _ _ _ hf2 hfin
    refine ⟨z1 ▸ hge, rfl, rfl,
      ⟨(f.writeAll env.enc.writes).writeAll env.fin.flushWrites, enc2.records⟩, ?_, ?_, ?_⟩
    · simp only [encoded, z2]
    · show ((f.writeAll env.enc.writes).writeAll env.fin.flushWrites).size = _
      rw [(writeAll_fields _ _).2.2.2, z1]
    · simp only [encoded, z3, (writeAll_fields _ _).2.2.1]
  · right
    exact ⟨z1 ▸ hlt, z2, z3, _, rfl, z1⟩

theorem runAppends_inv {α : Type} (dir : String) (inputs : List (AppendEnv × α)) :
    ∀ (recs : List α) (s s1 : Sys α), SinkInv dir recs s → runAppends inputs s = some s1 →
      SinkInv dir (recs ++ inputs.map Prod.snd) s1 := by
  induction inputs with
  | nil =>
    intro recs s s1 hi h
    simp only [runAppends, Option.some.injEq] at h
    subst h
    simpa using hi
  | cons x rest ih =>
    intro recs s s1 hi h
    obtain ⟨env, data⟩ := x
    simp only [runAppends] at h
    split at h
    · simp at h
    · next s2 ha =>
      have := ih (recs ++ [data]) s2 s1 (Append_inv dir recs env data s s2 hi ha) h
      simpa using this

theorem Append_sizes {α : Type} (env : AppendEnv) (data : α) (s s3 : Sys α)
    (hs : ∀ g ∈ s.sealed, SPLIT_SIZE ≤ g.handle.size) (h : Append env data s = some s3) :
    SizeInv s3 := by
  rcases Append_shape env data s s3 h with ⟨hge, hf, _, g, hg, hsz, _⟩ | ⟨hlt, hsl, _, f, hf, hsz⟩
  · refine ⟨?_, ?_⟩
    · intro x hx
      rw [hg] at hx
      simp only [List.mem_append, List.mem_singleton] at hx
      rcases hx with hx | rfl
      · exact hs x hx
      · omega
    · intro f hf2; simp [hf] at hf2
  · refine ⟨?_, ?_⟩
    · intro x hx
      rw [hsl] at hx
      exact hs x hx
    · intro f2 hf2
      rw [hf] at hf2
      simp only [Option.some.injEq] at hf2
      subst hf2
      omega

theorem runAppends_sizes {α : Type} (inputs : List (AppendEnv × α)) :
    ∀ (s s1 : Sys α), SizeInv s → runAppends inputs s = some s1 → SizeInv s1 := by
  induction inputs with
  | nil =>
    intro s s1 hi h
    simp only [runAppends, Option.some.injEq] at h
    subst h
    exact hi
  | cons x rest ih =>
    intro s s1 hi h
    obtain ⟨env, data⟩ := x
    simp only [runAppends] at h
    split at h
    · simp at h
    · next s2 ha => exact ih s2 s1 (Append_sizes env data s s2 hi.1 ha) h

theorem SizeInv_fresh {α : Type} (dir schema : String) :
    SizeInv (Sys.fresh dir schema : Sys α) := by
  constructor <;> simp [Sys.fresh, NewAvroWriter]

/-! ## The sink: the stated properties -/

/-- C2. No record loss: after any serialized sequence of `Append` calls on a
fresh `AvroWriter` followed by one `FinalizeSlice`, none of which panicked,
the records of the sealed segments, taken in sealing order, are exactly the
appended records; their total number is the number of `Append` calls; the
returned list names the sealed segments one for one; no segment is left
open. -/
theorem c2_no_record_loss {α : Type} (dir schema : String) (inputs : List (AppendEnv × α))
    (cenv : CloseEnv) (s s1 : Sys α) (out : List String)
    (hrun : runAppends inputs (Sys.fresh dir schema) = some s)
    (hfin : FinalizeSlice cenv s = some (out, s1)) :
    (s1.sealed.map Sealed.records).flatten = inputs.map Prod.snd ∧
      (s1.sealed.map (fun g => g.records.length)).sum = inputs.length ∧
      out = s1.sealed.map (fun g => g.handle.file) ∧
      s1.w.f = none ∧ s1.w.enc = none := by
  have hi := runAppends_inv dir inputs [] _ s (SinkInv_fresh dir schema) hrun
  obtain ⟨hj, ho, hf, he, _, _⟩ := FinalizeSlice_inv dir _ cenv s s1 out hi hfin
  have hr := hj.records_eq
  simp only [openRecords, he, List.append_nil, List.nil_append] at hr
  refine ⟨hr, ?_, ?_, hf, he⟩
  · have := congrArg List.length hr
    simpa [List.length_flatten, Function.comp_def] using this
  · rw [ho, hj.files_eq]

/-- A run for C2: three appends into `out/`, the second crossing `SPLIT_SIZE`,
then `FinalizeSlice`: two segments holding the records 1, 2 and 3. -/
theorem c2_witness :
    runAppends demoInputs (Sys.fresh "out/" "schema") = some (demoMid "out/") ∧
      FinalizeSlice (CloseEnv.quiet [7]) (demoMid "out/") = some (demoEnd "out/") ∧
      ((demoEnd "out/").2.sealed.map Sealed.records).flatten = [1, 2, 3] ∧
      (demoEnd "out/").1 = ["aaaaa.avro", "ccccc.avro"] :=
  ⟨rfl, rfl,
    (c2_no_record_loss "out/" "schema" demoInputs (CloseEnv.quiet [7]) (demoMid "out/")
      (demoEnd "out/").2 (demoEnd "out/").1 rfl rfl).1,
    by decide⟩

/-- C3. Segment cap: let `s` be the sink after any sequence of appends on a
fresh writer and `s1` the sink after one more `Append`.  That `Append` seals
a segment exactly when the handle's byte count after the encode is at least
`SPLIT_SIZE` (100,000,000), and otherwise seals nothing; afterwards the sink
is open exactly when that count is below `SPLIT_SIZE`, the open handle holding
that count; every segment sealed so far has size at least `SPLIT_SIZE`; and
after a closing `FinalizeSlice` only the last sealed segment may be smaller. -/
theorem c3_segment_cap {α : Type} (dir schema : String) (inputs : List (AppendEnv × α))
    (env : AppendEnv) (data : α) (s s1 : Sys α)
    (hrun : runAppends inputs (Sys.fresh dir schema) = some s)
    (happ : Append env data s = some s1) :
    ((∃ g, s1.sealed = s.sealed ++ [g]) ↔ SPLIT_SIZE ≤ sizeAfterEncode env s) ∧
      (s1.sealed = s.sealed ↔ sizeAfterEncode env s < SPLIT_SIZE) ∧
      ((∃ f, s1.w.f = some f) ↔ sizeAfterEncode env s < SPLIT_SIZE) ∧
      (∀ f, s1.w.f = some f → f.size = sizeAfterEncode env s) ∧
      (∀ g ∈ s1.sealed, SPLIT_SIZE ≤ g.handle.size) ∧
      (∀ (cenv : CloseEnv) (out : List String) (s2 : Sys α),
        FinalizeSlice cenv s1 = some (out, s2) →
          ∀ g ∈ s2.sealed.dropLast, SPLIT_SIZE ≤ g.handle.size) ∧
      SPLIT_SIZE = 100000000 := by
  have hsz := runAppends_sizes inputs _ s (SizeInv_fresh dir schema) hrun
  have hsz1 := Append_sizes env data s s1 hsz.1 happ
  have hi := runAppends_inv dir inputs [] _ s (SinkInv_fresh dir schema) hrun
  have hi1 := Append_inv dir _ env data s s1 hi happ
  have hlast : ∀ (cenv : CloseEnv) (out : List String) (s2 : Sys α),
      FinalizeSlice cenv s1 = some (out, s2) →
        ∀ g ∈ s2.sealed.dropLast, SPLIT_SIZE ≤ g.handle.size := by
    intro cenv out s2 hfin g hg
    obtain ⟨_, _, _, _, hnone, hsome⟩ := FinalizeSlice_inv dir _ cenv s1 s2 out hi1 hfin
    cases hf : s1.w.f with
    | none =>
      rw [hnone hf] at hg
      exact hsz1.1 g (List.mem_of_mem_dropLast hg)
    | some f =>
      obtain ⟨x, hx, _⟩ := hsome f hf
      rw [hx, List.dropLast_concat] at hg
      exact hsz1.1 g hg
  rcases Append_shape env data s s1 happ with
    ⟨hge, hf, _, g, hg, _, _⟩ | ⟨hlt, hsl, _, f, hf, hfs⟩
  · refine ⟨⟨fun _ => hge, fun _ => ⟨g, hg⟩⟩, ⟨?_, fun h => by omega⟩,
      ⟨?_, fun h => by omega⟩, ?_, hsz1.1, hlast, rfl⟩
    · intro h
      have := congrArg List.length hg
      rw [h] at this
      simp at this
    · rintro ⟨f, hf2⟩
      simp [hf] at hf2
    · intro f hf2
      simp [hf] at hf2
  · refine ⟨⟨?_, fun h => by omega⟩, ⟨fun _ => hlt, fun _ => hsl⟩,
      ⟨fun _ => hlt, fun _ => ⟨f, hf⟩⟩, ?_, hsz1.1, hlast, rfl⟩
    · rintro ⟨g, hg⟩
      have := congrArg List.length hg
      rw [hsl] at this
      simp at this
    · intro f2 hf2
      rw [hf] at hf2
      simp only [Option.some.injEq] at hf2
      rw [← hf2, hfs]

/-- A run for C3: after one small append, the append of a record that takes
the handle to 100,000,030 bytes seals the segment. -/
theorem c3_witness :
    runAppends (demoInputs.take 1) (Sys.fresh "out/" "schema") = some (demoOne "out/") ∧
      Append (AppendEnv.quiet 1 10 SPLIT_SIZE) 2 (demoOne "out/") = some (demoTwo "out/") ∧
      sizeAfterEncode (AppendEnv.quiet 1 10 SPLIT_SIZE) (demoOne "out/") = 100000030 ∧
      ((∃ g, (demoTwo "out/").sealed = (demoOne "out/").sealed ++ [g]) ↔
        SPLIT_SIZE ≤ sizeAfterEncode (AppendEnv.quiet 1 10 SPLIT_SIZE) (demoOne "out/")) ∧
      (∀ g ∈ (demoTwo "out/").sealed, SPLIT_SIZE ≤ g.handle.size) :=
  ⟨rfl, rfl, by decide,
    (c3_segment_cap "out/" "schema" (demoInputs.take 1) (AppendEnv.quiet 1 10 SPLIT_SIZE) 2
      (demoOne "out/") (demoTwo "out/") rfl rfl).1,
    (c3_segment_cap "out/" "schema" (demoInputs.take 1) (AppendEnv.quiet 1 10 SPLIT_SIZE) 2
      (demoOne "out/") (demoTwo "out/") rfl rfl).2.2.2.2.1⟩

/-- C8. Postcondition of `FinalizeSlice`.  On a sink with an open segment it
returns, unless a library call fails or the upload target does not parse;
when it returns, the encoder's last bytes went through the handle, the handle
was closed, `f` and `enc` are nil, and the returned list is the previous list
with the segment's entry appended last.  On an empty sink it returns the list
and changes nothing.  In every case the previous list is an initial part of
the returned one, and a second call returns the same list and state. -/
theorem c8_finalize_postcondition {α : Type} (env env2 : CloseEnv) (s : Sys α) :
    (∀ f enc, s.w.f = some f → s.w.enc = some enc →
      ((env.encCloseErr = false ∧ env.fpCloseErr = false ∧ env.uploadErr = false ∧
          env.removeErr = false ∧
          (HasPrefix f.dir "s3://" = true → (ParseS3Uri (f.dir ++ f.file)).isSome = true)) →
        (FinalizeSlice env s).isSome = true) ∧
      ∀ out s1, FinalizeSlice env s = some (out, s1) →
        s1.w.f = none ∧ s1.w.enc = none ∧ out = s.w.files ++ [f.file] ∧ s1.w.files = out ∧
          Effect.closeFile f.fp ∈ s1.effects ∧
          s1.sealed = s.sealed ++ [⟨f.writeAll env.flushWrites, enc.records⟩]) ∧
    (s.w.f = none → FinalizeSlice env s = some (s.w.files, s)) ∧
    (∀ out s1, FinalizeSlice env s = some (out, s1) →
      s.w.files <+: out ∧ FinalizeSlice env2 s1 = some (out, s1)) := by
  refine ⟨?_, FinalizeSlice_empty env s, ?_⟩
  · intro f enc hf he
    constructor
    · rintro ⟨e1, e2, e3, e4, hp⟩
      obtain ⟨w1, w2, w3, _⟩ := writeAll_fields env.flushWrites f
      cases hr : HasPrefix f.dir "s3://" with
      | false => simp [FinalizeSlice, hf, he, e1, FileWrapper.Close, e2, w2, hr]
      | true =>
        obtain ⟨⟨b, k⟩, hbk⟩ := Option.isSome_iff_exists.mp (hp hr)
        simp [FinalizeSlice, hf, he, e1, FileWrapper.Close, e2, e3, e4, w2, w3, hr, hbk]
    · intro out s1 h
      obtain ⟨enc2, eff, he2, hc, rfl, rfl⟩ := FinalizeSlice_open env s s1 f _ hf h
      rw [he] at he2
      simp only [Option.some.injEq] at he2
      subst he2
      refine ⟨rfl, rfl, rfl, rfl, ?_, rfl⟩
      have hcl := Close_spec _ _ _ _ hc
      rw [(writeAll_fields _ f).1] at hcl
      split at hcl
      · obtain ⟨b, k, _, e⟩ := hcl
        simp [e]
      · simp [hcl]
  · intro out s1 h
    cases hf : s.w.f with
    | none =>
      rw [FinalizeSlice_empty env s hf] at h
      simp only [Option.some.injEq, Prod.mk.injEq] at h
      obtain ⟨rfl, rfl⟩ := h
      exact ⟨List.prefix_refl _, FinalizeSlice_empty env2 s hf⟩
    | some f =>
      obtain ⟨enc2, eff, _, _, rfl, rfl⟩ := FinalizeSlice_open env s s1 f _ hf h
      exact ⟨List.prefix_append _ _, FinalizeSlice_empty env2 _ rfl⟩

/-- A run for C8: `FinalizeSlice` on the sink left open by `demoInputs`, and a
second call. -/
theorem c8_witness :
    (demoMid "out/").w.f = some ⟨"out/ccccc.avro", 30, "out/", "ccccc.avro"⟩ ∧
      FinalizeSlice (CloseEnv.quiet [7]) (demoMid "out/") = some (demoEnd "out/") ∧
      (demoEnd "out/").1 = (demoMid "out/").w.files ++ ["ccccc.avro"] ∧
      FinalizeSlice (CloseEnv.quiet []) (demoEnd "out/").2 = some (demoEnd "out/") :=
  ⟨rfl, rfl,
    (((c8_finalize_postcondition (CloseEnv.quiet [7]) (CloseEnv.quiet []) (demoMid "out/")).1
      ⟨"out/ccccc.avro", 30, "out/", "ccccc.avro"⟩ ⟨"schema", [3]⟩ rfl rfl).2
      (demoEnd "out/").1 (demoEnd "out/").2 rfl).2.2.1,
    ((c8_finalize_postcondition (CloseEnv.quiet [7]) (CloseEnv.quiet []) (demoMid "out/")).2.2
      (demoEnd "out/").1 (demoEnd "out/").2 rfl).2⟩

/-- C9, as the code has it.  After any sequence of appends on a fresh writer
for `dir` and the closing `FinalizeSlice`, the returned list (which `main`
prints line by line) holds, in sealing order, the bare name of each sealed
segment, a name generated by `newFile`, without the output location.  The
segment itself is stored at `dir` followed by that name: for an S3 directory
the staging file was uploaded to the bucket and key parsed from `dir ++ name`,
otherwise the local file `dir ++ name` was created and closed. -/
theorem c9_listed_names {α : Type} (dir schema : String) (inputs : List (AppendEnv × α))
    (cenv : CloseEnv) (s s1 : Sys α) (out : List String)
    (hrun : runAppends inputs (Sys.fresh dir schema) = some s)
    (hfin : FinalizeSlice cenv s = some (out, s1)) :
    out = s1.sealed.map (fun g => g.handle.file) ∧
      ∀ g ∈ s1.sealed, (∃ rnd, g.handle.file = newFile rnd) ∧
        if HasPrefix dir "s3://" then
          ∃ b k, ParseS3Uri (dir ++ g.handle.file) = some (b, k) ∧
            Effect.putObject g.handle.fp b k ∈ s1.effects
        else
          g.handle.fp = dir ++ g.handle.file ∧
            Effect.create (dir ++ g.handle.file) ∈ s1.effects ∧
            Effect.closeFile (dir ++ g.handle.file) ∈ s1.effects := by
  have hi := runAppends_inv dir inputs [] _ s (SinkInv_fresh dir schema) hrun
  obtain ⟨hj, ho, _, _, _, _⟩ := FinalizeSlice_inv dir _ cenv s s1 out hi hfin
  refine ⟨by rw [ho, hj.files_eq], ?_⟩
  intro g hg
  obtain ⟨_, h2, h3⟩ := hj.sealed_at g hg
  exact ⟨h2, h3⟩

/-- A run for C9 with the remote directory `s3://b/k/`. -/
theorem c9_witness :
    runAppends demoInputs (Sys.fresh "s3://b/k/" "schema") = some (demoMid "s3://b/k/") ∧
      FinalizeSlice (CloseEnv.quiet [7]) (demoMid "s3://b/k/") = some (demoEnd "s3://b/k/") ∧
      (demoEnd "s3://b/k/").1 = (demoEnd "s3://b/k/").2.sealed.map (fun g => g.handle.file) ∧
      (demoEnd "s3://b/k/").1 = ["aaaaa.avro", "ccccc.avro"] ∧
      Effect.putObject "/tmp/stage" "b" "k/ccccc.avro" ∈ (demoEnd "s3://b/k/").2.effects :=
  ⟨rfl, rfl,
    (c9_listed_names "s3://b/k/" "schema" demoInputs (CloseEnv.quiet [7]) (demoMid "s3://b/k/")
      (demoEnd "s3://b/k/").2 (demoEnd "s3://b/k/").1 rfl rfl).1,
    by decide, by decide⟩

/-- C9 as stated fails: with the local output directory `out/` the segment
files are created as `out/aaaaa.avro` and `out/ccccc.avro`, and with the remote
directory `s3://b/k/` they are uploaded to bucket `b` under `k/aaaaa.avro` and
`k/ccccc.avro`, but in both runs the returned list is
`aaaaa.avro`, `ccccc.avro`: names, not locations. -/
theorem c9_counterexample :
    (demoEnd "out/").1 = ["aaaaa.avro", "ccccc.avro"] ∧
      (demoEnd "out/").1 ≠ ["out/aaaaa.avro", "out/ccccc.avro"] ∧
      (demoEnd "out/").2.effects =
        [.mkdirAll "out/", .create "out/aaaaa.avro", .closeFile "out/aaaaa.avro",
         .mkdirAll "out/", .create "out/ccccc.avro", .closeFile "out/ccccc.avro"] ∧
      (demoEnd "s3://b/k/").1 = ["aaaaa.avro", "ccccc.avro"] ∧
      (demoEnd "s3://b/k/").1 ≠ ["s3://b/k/aaaaa.avro", "s3://b/k/ccccc.avro"] ∧
      (demoEnd "s3://b/k/").2.effects =
        [.createTemp "/tmp/stage", .closeFile "/tmp/stage",
         .putObject "/tmp/stage" "b" "k/aaaaa.avro", .remove "/tmp/stage",
         .createTemp "/tmp/stage", .closeFile "/tmp/stage",
         .putObject "/tmp/stage" "b" "k/ccccc.avro", .remove "/tmp/stage"] := by
  decide

end Superfetch
